import Mathlib

/-!
Verification development for the `kas_alias` symbol-alias post-processor.

The definitions below are a shallow embedding of the C sources of the
current revision of the tool: `kas_alias.c` (alias engine `main`), the
hash-indexed symbol store of `item_list.c` (`struct heads`, `add_item`,
`add_item_at`, `item_counter`, murmur3 `hash_function`), and the
addr2line bridge of `a2l.c` (`normalizePath`, `remove_subdir`,
`create_suffix`, `create_file_suffix`).  Byte strings are modelled as
`List Char` (the symbol data is ASCII).  External collaborators
(the libc regex engine behind `filter_symbols`, and the `addr2line`
child process behind `addr2line_get_lines`) are modelled as oracle
parameters, as the specification treats them as external interfaces.
-/

namespace KasAlias

/-- `MAX_NAME_SIZE` from `item_list.h`: a record's name buffer holds at
most 255 characters plus the terminator. -/
def MAX_NAME_SIZE : Nat := 256

/-- `HASH_TABLE_SIZE` from `item_list.h` (`1 << 14`). -/
def HASH_TABLE_SIZE : Nat := 16384

/-- C `isspace` in the C locale: space, \t, \n, \v, \f, \r.  Used by the
`fscanf` conversions of the ingest loop. -/
def cIsSpace (c : Char) : Bool :=
  c = ' ' || c = '\t' || c = '\n' || c = '\x0b' || c = '\x0c' || c = '\r'

/-- Hex digit recognizer for the `%lx` conversion of `fscanf`. -/
def isHexDig (c : Char) : Bool :=
  ('0' ≤ c && c ≤ '9') || ('a' ≤ c && c ≤ 'f') || ('A' ≤ c && c ≤ 'F')

/-- Numeric value of a hex digit (junk value 0 on non-digits). -/
def hexCharVal (c : Char) : Nat :=
  if '0' ≤ c && c ≤ '9' then c.toNat - 48
  else if 'a' ≤ c && c ≤ 'f' then c.toNat - 87
  else if 'A' ≤ c && c ≤ 'F' then c.toNat - 55
  else 0

/-- Value of a run of hex digits, most significant first, as read by
`%lx`. -/
def hexVal (l : List Char) : Nat :=
  l.foldl (fun a c => 16 * a + hexCharVal c) 0

/-- Lowercase hex digit for printing (`%08lx` prints lowercase). -/
def hexChar (d : Nat) : Char :=
  Char.ofNat (if d < 10 then 48 + d else 87 + d)

/-- Accumulator-style hex rendering; the fuel argument only serves
structural recursion and any fuel above the value works. -/
def toHexAux : Nat → Nat → List Char → List Char
  | 0, _, acc => acc
  | fuel + 1, n, acc =>
    if n < 16 then hexChar n :: acc
    else toHexAux fuel (n / 16) (hexChar (n % 16) :: acc)

/-- Minimal lowercase hex rendering of a number, as `%lx` prints it. -/
def toHex (n : Nat) : List Char := toHexAux (n + 1) n []

/-- Zero-padded-to-8 hex rendering, as `%08lx` prints it (wider numbers
widen naturally). -/
def pad8hex (n : Nat) : List Char :=
  List.replicate (8 - (toHex n).length) '0' ++ toHex n

/-- Decimal digit for printing (`%d`). -/
def decChar (d : Nat) : Char := Char.ofNat (48 + d)

/-- Accumulator-style decimal rendering with structural fuel. -/
def toDecAux : Nat → Nat → List Char → List Char
  | 0, _, acc => acc
  | fuel + 1, n, acc =>
    if n < 10 then decChar n :: acc
    else toDecAux fuel (n / 10) (decChar (n % 10) :: acc)

/-- Decimal rendering of a nonnegative number, as `%d` prints it. -/
def toDec (n : Nat) : List Char := toDecAux (n + 1) n []

/-- Substring test: does `needle` occur contiguously inside `hay`?
This is C `strstr(hay, needle) != NULL`. -/
def hasSub (needle hay : List Char) : Bool :=
  hay.tails.any (fun t => needle.isPrefixOf t)

/-- A symbol record: the essential fields of `struct item`
(`symb_name`, `addr`, `stype`).  `addr` is the `uint64_t` address
(values are kept below `2 ^ 64` by the ingest), `stype` the
one-character `nm` class code. -/
structure Sym where
  name : List Char
  addr : Nat
  stype : Char
deriving DecidableEq, Repr

/-- A node of the in-memory sequence.  The `ingested` tag is pure
bookkeeping for the verification: it marks records appended by the
ingest loop (`add_item`) as opposed to alias records spliced in by
`add_item_at`.  It does not influence any computation. -/
structure Node where
  sym : Sym
  ingested : Bool
deriving DecidableEq, Repr

/-- An alias-synthesis event: the record being visited when
`add_item_at` ran, and the alias record created. -/
structure Ev where
  base : Node
  anew : Sym
deriving DecidableEq, Repr

/-!  ## The `fscanf` tokenizer of the ingest loop

`main` reads records with `fscanf(fp, "%lx %c %99s\n", ...)` and stops
at the first return value other than 3.  `scanfStep` models one such
call on a character stream: `%lx` skips whitespace and consumes a
maximal nonempty run of hex digits (the optional sign/`0x` prefix
forms, never produced by `nm` or by the tool itself, are not modelled);
the value is stored into a `uint64_t`, hence the `% 2 ^ 64`; `%c` after
a whitespace directive consumes one character; `%99s` skips whitespace
and consumes at most 99 non-whitespace characters; the trailing `"\n"`
directive consumes any further whitespace. -/
def scanfTail (addr : Nat) : List Char → Option (Sym × List Char)
  | [] => none
  | c :: s3 =>
    let s4 := s3.dropWhile cIsSpace
    let nm := (s4.takeWhile (fun x => !cIsSpace x)).take 99
    if nm.isEmpty then none
    else some (⟨nm, addr, c⟩, (s4.drop nm.length).dropWhile cIsSpace)

def scanfStep (s : List Char) : Option (Sym × List Char) :=
  let s1 := s.dropWhile cIsSpace
  let ds := s1.takeWhile isHexDig
  if ds.isEmpty then none
  else scanfTail (hexVal ds % 18446744073709551616) ((s1.drop ds.length).dropWhile cIsSpace)

/-- The idempotence marker tested during ingest:
`strstr(sym_name, "@_")` in `main`. -/
def atUnderscore : List Char := ['@', '_']

/-- The ingest loop of `main`: parse records until `fscanf` fails,
clearing `need_2_process` when a name contains `"@_"`.  The fuel is
`length + 1`; every successful `scanfStep` consumes at least one
character, so the fuel never runs out. -/
def ingestAux : Nat → List Char → Bool → List Sym × Bool
  | 0, _, flag => ([], flag)
  | fuel + 1, s, flag =>
    match scanfStep s with
    | none => ([], flag)
    | some (sym, rest) =>
      let flag' := if hasSub atUnderscore sym.name then false else flag
      let (syms, fl) := ingestAux fuel rest flag'
      (sym :: syms, fl)

/-- Ingest a whole input stream: the parsed records in order, and the
final `need_2_process` flag. -/
def ingest (s : List Char) : List Sym × Bool :=
  ingestAux (s.length + 1) s true

/-- `printnm`: one output line, `fprintf(of, "%08lx %c %s\n", ...)`. -/
def printLine (r : Sym) : List Char :=
  pad8hex r.addr ++ ' ' :: r.stype :: ' ' :: (r.name ++ ['\n'])

/-- `printnm`: the whole output stream. -/
def printNm (rs : List Sym) : List Char :=
  (rs.map printLine).flatten

/-!  ## The hashed multiplicity index of `item_list.c`

`struct hash_index` is an array of `HASH_TABLE_SIZE` chains of
`(key, count)` nodes; `hash_function` is a murmur3-style 32-bit hash of
the key bytes reduced modulo the table size.  The table is modelled as
a function from bucket number to chain.  The byte view of a name takes
each character modulo 256 and the 4-byte blocks are combined
little-endian, as on the platforms the tool targets. -/

/-- Truncate to `uint32_t`. -/
def u32 (n : Nat) : Nat := n % 4294967296

/-- `ROTL32` from `item_list.c`. -/
def rotl32 (x r : Nat) : Nat :=
  u32 (Nat.lor (u32 (Nat.shiftLeft x r)) (Nat.shiftRight x (32 - r)))

/-- The per-word mixing of `hash_function`
(`k1 *= c1; k1 = ROTL32(k1,15); k1 *= c2`). -/
def murmurMixK (k : Nat) : Nat :=
  u32 (rotl32 (u32 (k * 0xcc9e2d51)) 15 * 0x1b873593)

/-- The per-word hash update of `hash_function`
(`hash ^= k1; hash = ROTL32(hash,13); hash = hash*5 + 0xe6546b64`). -/
def murmurMixH (h k : Nat) : Nat :=
  u32 (rotl32 (Nat.xor h k) 13 * 5 + 0xe6546b64)

/-- Little-endian combination of at most four bytes, matching both the
`uint32_t` block loads and the fall-through `switch` on the tail. -/
def leWord : List Nat → Nat
  | [] => 0
  | b :: bs => b + 256 * leWord bs

/-- The full 4-byte blocks of a byte string, little-endian. -/
def leBlocks : List Nat → List Nat
  | b0 :: b1 :: b2 :: b3 :: rest => leWord [b0, b1, b2, b3] :: leBlocks rest
  | _ => []

/-- The remaining 0–3 tail bytes after the full blocks. -/
def leTail : List Nat → List Nat
  | _ :: _ :: _ :: _ :: rest => leTail rest
  | l => l

/-- `hash_function` from `item_list.c`: murmur3 of the key bytes with
seed `0x55aa9966`, finalized and reduced modulo `HASH_TABLE_SIZE`. -/
def hash_function (key : List Char) : Nat :=
  let bytes := key.map (fun c => c.toNat % 256)
  let len := bytes.length
  let h1 := (leBlocks bytes).foldl (fun h blk => murmurMixH h (murmurMixK blk)) 0x55aa9966
  let h2 :=
    match leTail bytes with
    | [] => h1
    | t => Nat.xor h1 (murmurMixK (leWord t))
  let h3 := Nat.xor h2 len
  let h4 := Nat.xor h3 (Nat.shiftRight h3 16)
  let h5 := u32 (h4 * 0x85ebca6b)
  let h6 := Nat.xor h5 (Nat.shiftRight h5 13)
  let h7 := u32 (h6 * 0xc2b2ae35)
  let h8 := Nat.xor h7 (Nat.shiftRight h7 16)
  h8 % HASH_TABLE_SIZE

/-- A bucket chain of `struct hash_node` records, head first. -/
def Chain := List (List Char × Nat)

/-- The hash table: bucket number to chain. -/
def Idx := Nat → List (List Char × Nat)

/-- Walk a chain for `key` (`strcmp(current->key, key) == 0`) and
return its count. -/
def chainFind : List (List Char × Nat) → List Char → Option Nat
  | [], _ => none
  | (k, c) :: t, key => if k = key then some c else chainFind t key

/-- Increment the count of the first node carrying `key`
(`current->count++`), leaving the chain shape unchanged. -/
def chainBump : List (List Char × Nat) → List Char → List (List Char × Nat)
  | [], _ => []
  | (k, c) :: t, key => if k = key then (k, c + 1) :: t else (k, c) :: chainBump t key

/-- `update_hash_index`: bump the existing node for `key`, or prepend a
fresh `(key, 1)` node to the bucket `hash_function key`. -/
def update_hash_index (idx : Idx) (key : List Char) : Idx :=
  fun b' =>
    if b' = hash_function key then
      match chainFind (idx (hash_function key)) key with
      | some _ => chainBump (idx (hash_function key)) key
      | none => (key, 1) :: idx (hash_function key)
    else idx b'

/-- `init_hash_index`: all buckets empty. -/
def init_hash_index : Idx := fun _ => []

/-- `item_counter` from `item_list.c`: the count recorded for `key`, or
`-1` when no node carries it. -/
def item_counter (idx : Idx) (key : List Char) : Int :=
  match chainFind (idx (hash_function key)) key with
  | some c => (c : Int)
  | none => -1

/-- The index built by the ingest loop: one `update_hash_index` per
`add_item` call, in ingest order.  `add_item_at` (alias insertion) never
touches the index. -/
def buildIndex (names : List (List Char)) : Idx :=
  names.foldl update_hash_index init_hash_index

/-!  ## The addr2line bridge (`a2l.c`)

The child process itself is an external collaborator; it is modelled by
an oracle `o : Nat → Option (List Char)` giving, for an address, the
second response line (already stripped of its newline, as
`addr2line_get_lines` does before calling `normalizePath`), or `none`
when the read from the pipe fails. -/

/-- The `strtok(inbuf, "/")` token sequence: maximal nonempty runs
between `/` separators. -/
def pathTokens (s : List Char) : List (List Char) :=
  (s.splitOn '/').filter (fun t => !t.isEmpty)

/-- `strrchr(outputPath, '/')` truncation: drop the last
`/<component>` of the buffer; a buffer without `/` is unchanged
(`strrchr` returns `NULL`). -/
def dropLastComp (buf : List Char) : List Char :=
  if buf.contains '/' then ((buf.reverse.dropWhile (fun c => !(c = '/'))).drop 1).reverse
  else buf

/-- The token loop of `normalizePath`.  `seen` models
`prevToken != NULL`: it is false exactly while no token has been
processed yet. -/
def normLoop : List (List Char) → Bool → List Char → List Char
  | [], _, buf => buf
  | t :: ts, seen, buf =>
    if t = ['.', '.'] && seen then normLoop ts true (dropLastComp buf)
    else if t = ['.'] then normLoop ts true buf
    else normLoop ts true (buf ++ '/' :: t)

/-- `normalizePath` from `a2l.c`: `NULL` on an empty input, otherwise
the lexically resolved path built by the token loop. -/
def normalizePath (input : List Char) : Option (List Char) :=
  if input.isEmpty then none
  else some (normLoop (pathTokens input) false [])

/-- `remove_subdir(home, f_path)` from `a2l.c`: the byte comparison
loop stops at the first differing byte (terminators included), and the
suffix is returned iff the mismatch sits exactly at `home`'s
terminator, i.e. iff `home` is a strict prefix of `f_path`.  When the
two strings are equal the C loop runs past both terminators (undefined
behaviour); the model returns `none` for that case. -/
def remove_subdir (home f_path : List Char) : Option (List Char) :=
  if home ≠ f_path && home.isPrefixOf f_path then some (f_path.drop home.length)
  else none

/-- `NEED2NORMALIZE` from `kas_alias.c`: a byte is rewritten to `_`
unless it is alphanumeric or `@`. -/
def sanitizeChar (c : Char) : Char :=
  if c.isAlphanum || c = '@' then c else '_'

/-- The in-place normalization loop of `create_file_suffix`, applied to
the whole alias string. -/
def sanitize (s : List Char) : List Char := s.map sanitizeChar

/-- `create_suffix`: the serial fallback alias name
(`sprintf("%s__alias__%d", name, suffix_serial++)`); returns the name
and the incremented serial. -/
def create_suffix (name : List Char) (serial : Nat) : List Char × Nat :=
  (name ++ ('_' :: '_' :: 'a' :: 'l' :: 'i' :: 'a' :: 's' :: '_' :: '_' :: toDec serial),
   serial + 1)

/-- `addr2line_get_lines` composed with the response oracle: the raw
second line, passed through `normalizePath` (which yields `none` for an
empty line, matching the `NULL` return). -/
def addr2line_get_lines (o : Nat → Option (List Char)) (address : Nat) :
    Option (List Char) :=
  match o address with
  | none => none
  | some l => normalizePath l

/-- Errors that abort a run of the alias engine. -/
inductive KasErr where
  /-- `filter_symbols` reported a regex failure on an aliasable
  duplicate (`res < 0` branch of `main`). -/
  | filterErr : KasErr
  /-- `addr2line_get_lines` returned `NULL`; `create_file_suffix`
  passes that pointer straight to `remove_subdir`, which dereferences
  it — undefined behaviour (a crash) in the C program. -/
  | bridgeCrash : KasErr
  /-- Fuel exhaustion of the modelled duplicate walk (never reached for
  the runs considered here). -/
  | fuel : KasErr
deriving DecidableEq, Repr

instance instDecEqExcept {e a : Type} [DecidableEq e] [DecidableEq a] :
    DecidableEq (Except e a) := fun x y =>
  match x, y with
  | .error u, .error v =>
    if h : u = v then .isTrue (by rw [h])
    else .isFalse (fun hc => h (Except.error.inj hc))
  | .error _, .ok _ => .isFalse (fun hc => Except.noConfusion hc)
  | .ok _, .error _ => .isFalse (fun hc => Except.noConfusion hc)
  | .ok u, .ok v =>
    if h : u = v then .isTrue (by rw [h])
    else .isFalse (fun hc => h (Except.ok.inj hc))

/-- `create_file_suffix` from `kas_alias.c`: query the bridge, rebase
the normalized path against `cwd` (the image directory,
`vmlinux_path`), and either sanitize `<name>@<relpath>` or fall back to
`create_suffix`.  Returns the alias name and the updated serial. -/
def create_file_suffix (name : List Char) (address : Nat) (cwd : List Char)
    (o : Nat → Option (List Char)) (serial : Nat) :
    Except KasErr (List Char × Nat) :=
  match addr2line_get_lines o address with
  | none => .error .bridgeCrash
  | some buf =>
    match remove_subdir cwd buf with
    | some f_path => .ok (sanitize (name ++ '@' :: f_path), serial)
    | none => .ok (create_suffix name serial)

/-!  ## The alias engine (`main` of `kas_alias.c`)

The build-time switches of the filter are a configuration record:
`aliasData` is `CONFIG_KALLSYMS_ALIAS_DATA` (it gates both the data
symbol classes in `SYMB_NEEDS_ALIAS` and the very presence of the
`filter_symbols` call).  `CONFIG_KALLSYMS_ALIAS_DATA_ALL` only selects
which regexes populate `ignore_regex`, which is absorbed into the
filter oracle `filt : List Char → Int` — the value `filter_symbols`
returns for a name against the active list (`FMATCH = 1`,
`FNOMATCH = 0`, negative on a regex failure). -/

/-- Build configuration: `CONFIG_KALLSYMS_ALIAS_DATA`. -/
structure Cfg where
  aliasData : Bool
deriving DecidableEq, Repr

/-- `SYMB_IS_TEXT`. -/
def symb_is_text (c : Char) : Bool := c = 't' || c = 'T'

/-- `SYMB_IS_DATA`. -/
def symb_is_data (c : Char) : Bool :=
  c = 'b' || c = 'B' || c = 'd' || c = 'D' || c = 'r' || c = 'R'

/-- `SYMB_NEEDS_ALIAS` under the two preprocessor variants. -/
def symb_needs_alias (cfg : Cfg) (c : Char) : Bool :=
  if cfg.aliasData then symb_is_text c || symb_is_data c else symb_is_text c

/-- The per-record decision of the duplicate walk in `main`:
`ok true` when an alias is synthesized for the visited record,
`ok false` when the record is passed over, `error` on the
`res < 0` regex-failure branch.  Mirrors the nesting of `main`:
the multiplicity test, then (with `CONFIG_KALLSYMS_ALIAS_DATA`) the
`filter_symbols` call and `res != FMATCH && SYMB_NEEDS_ALIAS`, or
(without it) just `SYMB_NEEDS_ALIAS`. -/
def alias_decision (cfg : Cfg) (filt : List Char → Int) (idx : Idx) (s : Sym) :
    Except KasErr Bool :=
  if item_counter idx s.name > 1 then
    if cfg.aliasData then
      if !(filt s.name == 1) && symb_needs_alias cfg s.stype then
        if filt s.name < 0 then .error .filterErr else .ok true
      else .ok false
    else .ok (symb_needs_alias cfg s.stype)
  else .ok false

/-- The duplicate walk of `main`: visit each node of the sequence; when
the decision fires, synthesize an alias name with `create_file_suffix`
and splice the alias record in right after the visited node
(`add_item_at`, which copies the visited record's address and type),
so the walk's next visit is the freshly inserted alias.  Returns the
final sequence, the synthesis events in visit order, and the final
serial.  The fuel only bounds the recursion; `walkFuel` below is ample
for the runs considered. -/
def walkAux (cfg : Cfg) (filt : List Char → Int) (o : Nat → Option (List Char))
    (cwd : List Char) (idx : Idx) :
    Nat → Nat → List Node → Except KasErr (List Node × List Ev × Nat)
  | 0, _, _ => .error .fuel
  | _ + 1, serial, [] => .ok ([], [], serial)
  | fuel + 1, serial, x :: rest =>
    match alias_decision cfg filt idx x.sym with
    | .error e => .error e
    | .ok false =>
      match walkAux cfg filt o cwd idx fuel serial rest with
      | .error e => .error e
      | .ok (out, evs, s') => .ok (x :: out, evs, s')
    | .ok true =>
      match create_file_suffix x.sym.name x.sym.addr cwd o serial with
      | .error e => .error e
      | .ok (newName, serial') =>
        match walkAux cfg filt o cwd idx fuel serial'
            (⟨⟨newName, x.sym.addr, x.sym.stype⟩, false⟩ :: rest) with
        | .error e => .error e
        | .ok (out, evs, s') =>
          .ok (x :: out, ⟨x, ⟨newName, x.sym.addr, x.sym.stype⟩⟩ :: evs, s')

/-- Largest ingested name length, used for the walk fuel. -/
def maxNameLen (syms : List Sym) : Nat :=
  syms.foldr (fun s m => max s.name.length m) 0

/-- Fuel for the duplicate walk: any cascade of insertions grows the
name by at least one byte per step, and a node is only aliased while
its name is a key of the ingest index, so this bound is ample. -/
def walkFuel (syms : List Sym) : Nat :=
  (syms.length + 1) * (maxNameLen syms + 2)

/-- The ingested records as sequence nodes. -/
def origNodes (syms : List Sym) : List Node :=
  syms.map (fun s => ⟨s, true⟩)

/-- The index built by ingest: `add_item` updates it once per record. -/
def ingestIndex (syms : List Sym) : Idx :=
  buildIndex (syms.map Sym.name)

/-- A run of the alias engine after a successful `addr2line_init`:
ingest, then — unless some ingested name contained `"@_"` — the
duplicate walk.  Returns the final sequence and the synthesis events. -/
def kasRecords (cfg : Cfg) (filt : List Char → Int) (o : Nat → Option (List Char))
    (cwd : List Char) (input : List Char) : Except KasErr (List Node × List Ev) :=
  if (ingest input).2 then
    match walkAux cfg filt o cwd (ingestIndex (ingest input).1)
        (walkFuel (ingest input).1) 0 (origNodes (ingest input).1) with
    | .error e => .error e
    | .ok (out, evs, _) => .ok (out, evs)
  else .ok (origNodes (ingest input).1, [])

/-- A run of the alias engine producing the output bytes written by
`printnm`. -/
def kasStr (cfg : Cfg) (filt : List Char → Int) (o : Nat → Option (List Char))
    (cwd : List Char) (input : List Char) : Except KasErr (List Char) :=
  match kasRecords cfg filt o cwd input with
  | .error e => .error e
  | .ok (out, _) => .ok (printNm (out.map Node.sym))

/-- The whole `main` including the `addr2line_init` gate: when
initialization fails, `main` prints a diagnostic and returns 1 before
ingesting anything; otherwise any engine failure also exits 1. -/
def kasMain (initOk : Bool) (cfg : Cfg) (filt : List Char → Int)
    (o : Nat → Option (List Char)) (cwd : List Char) (input : List Char) :
    Except Nat (List Char) :=
  if initOk then
    match kasStr cfg filt o cwd input with
    | .error _ => .error 1
    | .ok out => .ok out
  else .error 1

/-!  ## Auxiliary notions used by the claim statements -/

/-- A record whose printed line survives a re-parse byte-for-byte:
nonempty whitespace-free name of at most 99 characters, a
non-whitespace type character, and an address representable in
`uint64_t`. -/
def WfSym (r : Sym) : Prop :=
  r.name ≠ [] ∧ r.name.length ≤ 99 ∧ (∀ c ∈ r.name, cIsSpace c = false) ∧
    cIsSpace r.stype = false ∧ r.addr < 18446744073709551616

instance (r : Sym) : Decidable (WfSym r) := by
  unfold WfSym; infer_instance

/-- Would the alias synthesized for `x` at serial `s` carry a name that
is fresh, i.e. not among the ingested names?  (On the bridge-crash
branch there is no name to collide.) -/
def alias_name_fresh (syms : List Sym) (cwd : List Char)
    (o : Nat → Option (List Char)) (x : Sym) (s : Nat) : Bool :=
  match create_file_suffix x.name x.addr cwd o s with
  | .ok (nm, _) => decide (nm ∉ syms.map Sym.name)
  | .error _ => true

/-- The lexical path-normalization algorithm exactly as the
specification words it: for each token, drop the last component when
the token is `..` and the buffer is non-empty, skip `.`, otherwise
append `/<token>`. -/
def specLexLoop : List (List Char) → List Char → List Char
  | [], buf => buf
  | t :: ts, buf =>
    if t = ['.', '.'] && !buf.isEmpty then specLexLoop ts (dropLastComp buf)
    else if t = ['.'] then specLexLoop ts buf
    else specLexLoop ts (buf ++ '/' :: t)

/-- The specification's path normalization (empty input refused, as the
code does). -/
def specLexNormalize (input : List Char) : Option (List Char) :=
  if input.isEmpty then none else some (specLexLoop (pathTokens input) [])

/-- The amended lexical algorithm: the `..` drop branch triggers
whenever the token is `..` and it is not the first token, regardless of
whether the buffer is empty (in which case it leaves the buffer
unchanged); a leading `..` is appended. -/
def amendedLexLoop : List (List Char) → Bool → List Char → List Char
  | [], _, buf => buf
  | t :: ts, isFirst, buf =>
    if t = ['.', '.'] && !isFirst then amendedLexLoop ts false (dropLastComp buf)
    else if t = ['.'] then amendedLexLoop ts false buf
    else amendedLexLoop ts false (buf ++ '/' :: t)

/-- The amended specification of path normalization. -/
def amendedLexNormalize (input : List Char) : Option (List Char) :=
  if input.isEmpty then none else some (amendedLexLoop (pathTokens input) true [])

/-!  ## Lemmas: hex printing and re-parsing -/

theorem toHexAux_succ (f n : Nat) (acc : List Char) :
    toHexAux (f + 1) n acc =
      if n < 16 then hexChar n :: acc
      else toHexAux f (n / 16) (hexChar (n % 16) :: acc) := rfl

theorem toHex_small {n : Nat} (h : n < 16) : toHex n = [hexChar n] := by
  unfold toHex
  rw [toHexAux_succ, if_pos h]

theorem toHexAux_eq (n : Nat) :
    ∀ fuel acc, n < fuel → toHexAux fuel n acc = toHex n ++ acc := by
  induction n using Nat.strong_induction_on with
  | _ n ih =>
    intro fuel acc hlt
    match fuel with
    | f + 1 =>
      by_cases h16 : n < 16
      · rw [toHexAux_succ, if_pos h16, toHex_small h16]; rfl
      · have hdiv : n / 16 < n := Nat.div_lt_self (by omega) (by omega)
        rw [toHexAux_succ, if_neg h16]
        rw [ih (n / 16) hdiv f (hexChar (n % 16) :: acc) (by omega)]
        have hrhs : toHex n = toHex (n / 16) ++ [hexChar (n % 16)] := by
          unfold toHex
          rw [toHexAux_succ, if_neg h16]
          exact ih (n / 16) hdiv n [hexChar (n % 16)] hdiv
        rw [hrhs, List.append_assoc]
        rfl

theorem toHex_step {n : Nat} (h : ¬ n < 16) :
    toHex n = toHex (n / 16) ++ [hexChar (n % 16)] := by
  unfold toHex
  rw [toHexAux_succ, if_neg h]
  exact toHexAux_eq (n / 16) n [hexChar (n % 16)] (Nat.div_lt_self (by omega) (by omega))

theorem hexChar_props : ∀ d < 16, hexCharVal (hexChar d) = d ∧
    isHexDig (hexChar d) = true ∧ cIsSpace (hexChar d) = false := by decide

theorem toHex_ne_nil (n : Nat) : toHex n ≠ [] := by
  induction n using Nat.strong_induction_on with
  | _ n ih =>
    by_cases h16 : n < 16
    · rw [toHex_small h16]; simp
    · rw [toHex_step h16]; simp

theorem toHex_chars (n : Nat) :
    ∀ c ∈ toHex n, isHexDig c = true ∧ cIsSpace c = false := by
  induction n using Nat.strong_induction_on with
  | _ n ih =>
    by_cases h16 : n < 16
    · rw [toHex_small h16]
      intro c hc
      rw [List.mem_singleton] at hc
      subst hc
      exact ⟨(hexChar_props n h16).2.1, (hexChar_props n h16).2.2⟩
    · rw [toHex_step h16]
      intro c hc
      rcases List.mem_append.1 hc with h | h
      · exact ih (n / 16) (Nat.div_lt_self (by omega) (by omega)) c h
      · rw [List.mem_singleton] at h
        subst h
        have h16' : n % 16 < 16 := Nat.mod_lt _ (by omega)
        exact ⟨(hexChar_props _ h16').2.1, (hexChar_props _ h16').2.2⟩

theorem hexVal_append_single (l : List Char) (c : Char) :
    hexVal (l ++ [c]) = 16 * hexVal l + hexCharVal c := by
  unfold hexVal
  rw [List.foldl_append]
  rfl

theorem hexVal_toHex (n : Nat) : hexVal (toHex n) = n := by
  induction n using Nat.strong_induction_on with
  | _ n ih =>
    by_cases h16 : n < 16
    · rw [toHex_small h16]
      show 16 * 0 + hexCharVal (hexChar n) = n
      rw [(hexChar_props n h16).1]
      omega
    · rw [toHex_step h16, hexVal_append_single,
        ih (n / 16) (Nat.div_lt_self (by omega) (by omega))]
      have h16' : n % 16 < 16 := Nat.mod_lt _ (by omega)
      rw [(hexChar_props _ h16').1]
      omega

theorem hexVal_zeros (k : Nat) (l : List Char) :
    hexVal (List.replicate k '0' ++ l) = hexVal l := by
  induction k with
  | zero => rfl
  | succ k ih =>
    show hexVal ('0' :: (List.replicate k '0' ++ l)) = hexVal l
    unfold hexVal at ih ⊢
    simpa using ih

theorem hexVal_pad8hex (n : Nat) : hexVal (pad8hex n) = n := by
  unfold pad8hex
  rw [hexVal_zeros, hexVal_toHex]

theorem pad8hex_ne_nil (n : Nat) : pad8hex n ≠ [] := by
  unfold pad8hex
  intro h
  exact toHex_ne_nil n (List.append_eq_nil.1 h).2

theorem pad8hex_chars (n : Nat) :
    ∀ c ∈ pad8hex n, isHexDig c = true ∧ cIsSpace c = false := by
  intro c hc
  rcases List.mem_append.1 hc with h | h
  · rw [List.eq_of_mem_replicate h]
    exact ⟨by decide, by decide⟩
  · exact toHex_chars n c h

theorem takeWhile_all_stop {p : Char → Bool} :
    ∀ (l : List Char) (c : Char) (r : List Char), (∀ a ∈ l, p a = true) →
      p c = false → (l ++ c :: r).takeWhile p = l := by
  intro l
  induction l with
  | nil =>
    intro c r _ hc
    simp [List.takeWhile_cons, hc]
  | cons a t ih =>
    intro c r hl hc
    have ha : p a = true := hl a (by simp)
    have ht := ih c r (fun x hx => hl x (List.mem_cons_of_mem a hx)) hc
    simp [List.takeWhile_cons, ha, ht]

theorem dropWhile_all_keep {p : Char → Bool} :
    ∀ (l : List Char) (r : List Char), l ≠ [] → (∀ a ∈ l, p a = false) →
      (l ++ r).dropWhile p = l ++ r := by
  intro l r hne hl
  match l with
  | a :: t =>
    have ha : p a = false := hl a (by simp)
    simp [List.dropWhile_cons, ha]

theorem dropWhile_cons_true {p : Char → Bool} {c : Char} (l : List Char)
    (hc : p c = true) : (c :: l).dropWhile p = l.dropWhile p := by
  simp [List.dropWhile_cons, hc]

theorem scanfStep_printLine (r : Sym) (rest : List Char) (h : WfSym r) :
    scanfStep (printLine r ++ rest) = some (r, rest.dropWhile cIsSpace) := by
  obtain ⟨hname, hlen, hnws, hstype, haddr⟩ := h
  have hshape : printLine r ++ rest =
      pad8hex r.addr ++ ' ' :: r.stype :: ' ' :: (r.name ++ '\n' :: rest) := by
    unfold printLine
    simp
  rw [hshape]
  have hdrop1 : (pad8hex r.addr ++ ' ' :: r.stype :: ' ' ::
      (r.name ++ '\n' :: rest)).dropWhile cIsSpace =
      pad8hex r.addr ++ ' ' :: r.stype :: ' ' :: (r.name ++ '\n' :: rest) :=
    dropWhile_all_keep _ _ (pad8hex_ne_nil _) (fun a ha => (pad8hex_chars _ a ha).2)
  have htake : (pad8hex r.addr ++ ' ' :: r.stype :: ' ' ::
      (r.name ++ '\n' :: rest)).takeWhile isHexDig = pad8hex r.addr :=
    takeWhile_all_stop _ _ _ (fun a ha => (pad8hex_chars _ a ha).1) (by decide)
  have hne1 : (pad8hex r.addr).isEmpty = false := by
    cases hpd : pad8hex r.addr with
    | nil => exact absurd hpd (pad8hex_ne_nil _)
    | cons x xs => rfl
  have hd3 : (r.name ++ '\n' :: rest).dropWhile cIsSpace = r.name ++ '\n' :: rest :=
    dropWhile_all_keep _ _ hname hnws
  have htake2 : (r.name ++ '\n' :: rest).takeWhile (fun x => !cIsSpace x) = r.name :=
    takeWhile_all_stop _ _ _ (fun a ha => by simp [hnws a ha]) (by decide)
  have hne2 : r.name.isEmpty = false := by
    cases hpd : r.name with
    | nil => exact absurd hpd hname
    | cons x xs => rfl
  have haddrv : hexVal (pad8hex r.addr) % 18446744073709551616 = r.addr := by
    rw [hexVal_pad8hex]
    exact Nat.mod_eq_of_lt haddr
  unfold scanfStep
  simp only [hdrop1, htake, hne1, Bool.false_eq_true, if_false, List.drop_left, haddrv]
  rw [dropWhile_cons_true _ (by decide)]
  rw [List.dropWhile_cons_of_neg (by simp [hstype])]
  simp only [scanfTail]
  have hd2 : List.dropWhile cIsSpace (' ' :: (r.name ++ '\n' :: rest)) =
      r.name ++ '\n' :: rest := by
    rw [dropWhile_cons_true _ (by decide)]
    exact hd3
  have hdnl : List.dropWhile cIsSpace ('\n' :: rest) = List.dropWhile cIsSpace rest :=
    dropWhile_cons_true _ (by decide)
  simp only [hd2, htake2, List.take_of_length_le hlen, hne2, Bool.false_eq_true,
    if_false, List.drop_left, hdnl]


/-!  ## Lemmas: the ingest loop -/

theorem printNm_nil : printNm [] = [] := rfl

theorem printNm_cons (r : Sym) (rs : List Sym) :
    printNm (r :: rs) = printLine r ++ printNm rs := by
  simp [printNm]

theorem printNm_dropWhile (rs : List Sym) :
    (printNm rs).dropWhile cIsSpace = printNm rs := by
  cases rs with
  | nil => rfl
  | cons r rs =>
    rw [printNm_cons]
    unfold printLine
    rw [List.append_assoc]
    exact dropWhile_all_keep _ _ (pad8hex_ne_nil _)
      (fun a ha => (pad8hex_chars _ a ha).2)

theorem printNm_length (rs : List Sym) : rs.length ≤ (printNm rs).length := by
  induction rs with
  | nil => simp [printNm]
  | cons r rs ih =>
    rw [printNm_cons, List.length_append]
    simp only [List.length_cons]
    have : 1 ≤ (printLine r).length := by
      unfold printLine
      simp
      omega
    omega

/-- The flag folding of the ingest loop: starting flag AND "no name
contains the marker". -/
theorem ingestAux_flag (fuel : Nat) :
    ∀ s flag, (ingestAux fuel s flag).2 =
      (flag && (ingestAux fuel s flag).1.all (fun r => !hasSub atUnderscore r.name)) := by
  induction fuel with
  | zero => intro s flag; simp [ingestAux]
  | succ fuel ih =>
    intro s flag
    unfold ingestAux
    cases hstep : scanfStep s with
    | none => simp
    | some pr =>
      obtain ⟨sym, rest⟩ := pr
      simp only []
      rw [ih rest]
      by_cases hm : hasSub atUnderscore sym.name
      · simp [hm]
      · simp only [hm]
        simp [List.all_cons, hm, Bool.and_assoc]

theorem ingest_flag (s : List Char) :
    (ingest s).2 = (ingest s).1.all (fun r => !hasSub atUnderscore r.name) := by
  unfold ingest
  rw [ingestAux_flag]
  simp

/-- The flag clears exactly when some ingested name contains `"@_"`. -/
theorem ingest_flag_false_iff (s : List Char) :
    (ingest s).2 = false ↔ ∃ r ∈ (ingest s).1, hasSub atUnderscore r.name = true := by
  rw [ingest_flag]
  simp [List.all_eq_true]

/-- Re-parsing a `printnm` stream of well-formed records recovers the
records exactly. -/
theorem ingestAux_printNm :
    ∀ (rs : List Sym) (fuel : Nat) (flag : Bool), rs.length < fuel →
      (∀ r ∈ rs, WfSym r) →
      ingestAux fuel (printNm rs) flag =
        (rs, flag && rs.all (fun r => !hasSub atUnderscore r.name)) := by
  intro rs
  induction rs with
  | nil =>
    intro fuel flag hf _
    match fuel with
    | f + 1 =>
      show ingestAux (f + 1) [] flag = ([], flag && true)
      simp [ingestAux, scanfStep, scanfTail]
  | cons r rs ih =>
    intro fuel flag hf hwf
    match fuel with
    | f + 1 =>
      rw [printNm_cons]
      unfold ingestAux
      rw [scanfStep_printLine r (printNm rs) (hwf r (by simp))]
      simp only []
      rw [printNm_dropWhile]
      rw [ih f _ (by simpa using hf) (fun x hx => hwf x (by simp [hx]))]
      by_cases hm : hasSub atUnderscore r.name
      · simp [hm]
      · simp [hm, Bool.and_assoc]

theorem ingest_printNm (rs : List Sym) (hwf : ∀ r ∈ rs, WfSym r) :
    ingest (printNm rs) = (rs, rs.all (fun r => !hasSub atUnderscore r.name)) := by
  unfold ingest
  rw [ingestAux_printNm rs _ true (by have := printNm_length rs; omega) hwf]
  simp

/-!  ## Lemmas: the hashed multiplicity index -/

theorem chainFind_bump_self :
    ∀ (chain : List (List Char × Nat)) (key : List Char) (c : Nat),
      chainFind chain key = some c →
      chainFind (chainBump chain key) key = some (c + 1) := by
  intro chain
  induction chain with
  | nil => intro key c h; simp [chainFind] at h
  | cons nd t ih =>
    intro key c h
    obtain ⟨k, v⟩ := nd
    by_cases hk : k = key
    · subst hk
      simp [chainFind] at h
      simp [chainBump, chainFind, h]
    · simp [chainFind, hk] at h
      simp [chainBump, chainFind, hk]
      exact ih key c h

theorem chainFind_bump_other :
    ∀ (chain : List (List Char × Nat)) (key k2 : List Char), k2 ≠ key →
      chainFind (chainBump chain key) k2 = chainFind chain k2 := by
  intro chain
  induction chain with
  | nil => intro key k2 _; rfl
  | cons nd t ih =>
    intro key k2 hne
    obtain ⟨k, v⟩ := nd
    by_cases hk : k = key
    · subst hk
      have hk2 : ¬ k = k2 := fun h => hne (h ▸ rfl)
      simp [chainBump, chainFind, hk2]
    · by_cases hk2 : k = k2
      · subst hk2
        simp [chainBump, chainFind, hk]
      · simp [chainBump, chainFind, hk, hk2]
        exact ih key k2 hne

/-- One `update_hash_index` step, viewed through `chainFind`. -/
theorem update_find (idx : Idx) (n k : List Char) :
    chainFind ((update_hash_index idx n) (hash_function k)) k =
      (if k = n then
        match chainFind (idx (hash_function n)) n with
        | some c => some (c + 1)
        | none => some 1
      else chainFind (idx (hash_function k)) k) := by
  by_cases hk : k = n
  · subst hk
    rw [if_pos rfl]
    unfold update_hash_index
    rw [if_pos rfl]
    cases hf : chainFind (idx (hash_function k)) k with
    | some c =>
      exact chainFind_bump_self _ _ _ hf
    | none =>
      simp [chainFind]
  · rw [if_neg hk]
    unfold update_hash_index
    by_cases hb : hash_function k = hash_function n
    · rw [if_pos hb, hb]
      cases hf : chainFind (idx (hash_function n)) n with
      | some c =>
        rw [← hb]
        exact chainFind_bump_other _ _ _ hk
      | none =>
        have hnk : ¬ n = k := fun h => hk (h ▸ rfl)
        rw [← hb]
        simp [chainFind, hnk]
    · rw [if_neg hb]

theorem foldl_update_find :
    ∀ (names : List (List Char)) (idx : Idx) (f : List Char → Nat),
      (∀ k, chainFind (idx (hash_function k)) k =
        (if f k = 0 then none else some (f k))) →
      ∀ k, chainFind ((names.foldl update_hash_index idx) (hash_function k)) k =
        (if f k + names.count k = 0 then none else some (f k + names.count k)) := by
  intro names
  induction names with
  | nil =>
    intro idx f hInv k
    simpa using hInv k
  | cons n names ih =>
    intro idx f hInv k
    rw [List.foldl_cons]
    have hstep : ∀ k2, chainFind ((update_hash_index idx n) (hash_function k2)) k2 =
        (if (if k2 = n then f k2 + 1 else f k2) = 0 then none
         else some (if k2 = n then f k2 + 1 else f k2)) := by
      intro k2
      rw [update_find]
      by_cases hk : k2 = n
      · subst hk
        rw [hInv k2]
        by_cases hz : f k2 = 0
        · simp [hz]
        · simp [hz]
      · simp [hk, hInv k2]
    rw [ih (update_hash_index idx n) _ hstep k]
    by_cases hk : k = n
    · subst hk
      rw [List.count_cons_self]
      rw [if_pos rfl]
      have harith : f k + 1 + names.count k = f k + (names.count k + 1) := by omega
      rw [harith]
    · rw [List.count_cons_of_ne hk]
      rw [if_neg hk]

/-- `item_counter` on the ingest-built index: the exact multiplicity of
the name among the `add_item` calls, and `-1` for a name never added. -/
theorem item_counter_buildIndex (names : List (List Char)) (key : List Char) :
    item_counter (buildIndex names) key =
      (if 0 < names.count key then (names.count key : Int) else -1) := by
  unfold item_counter buildIndex
  have h := foldl_update_find names init_hash_index (fun _ => 0)
    (fun k => by simp [init_hash_index, chainFind]) key
  rw [h]
  by_cases hc : names.count key = 0
  · simp [hc]
  · have hpos : 0 < names.count key := by omega
    simp [hc, hpos]

/-!  ## Lemmas: the duplicate walk -/

theorem alias_decision_error {cfg filt idx s e}
    (h : alias_decision cfg filt idx s = .error e) : e = KasErr.filterErr := by
  unfold alias_decision at h
  split at h
  · split at h
    · split at h
      · split at h
        · exact (Except.error.inj h).symm
        · exact absurd h (by simp)
      · exact absurd h (by simp)
    · exact absurd h (by simp)
  · exact absurd h (by simp)

theorem create_file_suffix_error {name addr cwd o serial e}
    (h : create_file_suffix name addr cwd o serial = .error e) :
    e = KasErr.bridgeCrash := by
  unfold create_file_suffix at h
  split at h
  · exact (Except.error.inj h).symm
  · split at h
    · exact absurd h (by simp)
    · exact absurd h (by simp)

theorem create_file_suffix_ok {name addr cwd o serial nm s'}
    (h : create_file_suffix name addr cwd o serial = .ok (nm, s')) :
    ((∃ p, nm = sanitize (name ++ '@' :: p)) ∨
      nm = (create_suffix name serial).1) ∧
    (s' = serial ∨ s' = serial + 1) := by
  unfold create_file_suffix at h
  split at h
  · exact absurd h (by simp)
  · split at h
    · rename_i buf f_path hrs
      have hp := Except.ok.inj h
      injection hp with h1 h2
      subst h1
      subst h2
      exact ⟨.inl ⟨f_path, rfl⟩, .inl rfl⟩
    · have hp := Except.ok.inj h
      rw [Prod.ext_iff] at hp
      obtain ⟨h1, h2⟩ := hp
      refine ⟨.inr h1.symm, .inr ?_⟩
      have : (create_suffix name serial).2 = serial + 1 := by simp [create_suffix]
      simp only [this] at h2
      exact h2.symm

theorem alias_decision_of_counter_le {cfg filt idx} {s : Sym}
    (h : item_counter idx s.name ≤ 1) :
    alias_decision cfg filt idx s = .ok false := by
  unfold alias_decision
  rw [if_neg (by omega)]

section WalkLemmas

variable (cfg : Cfg) (filt : List Char → Int) (o : Nat → Option (List Char))
variable (cwd : List Char) (idx : Idx)

theorem chain_to_chain'0 {R : Node → Node → Prop} {b : Node} {l : List Node}
    (h : List.Chain R b l) : List.Chain' R l := by
  cases l with
  | nil => trivial
  | cons a t => exact (List.chain_cons.1 h).2

/-- Derivations of successful duplicate walks: the graph of `walkAux`
restricted to `ok` results, used to reason about the walk by rule
induction. -/
inductive WalkOk : Nat → List Node → List Node × List Ev × Nat → Prop where
  | nil (serial : Nat) : WalkOk serial [] ([], [], serial)
  | skip {serial : Nat} {x : Node} {rest out : List Node} {evs : List Ev} {s' : Nat} :
      alias_decision cfg filt idx x.sym = .ok false →
      WalkOk serial rest (out, evs, s') →
      WalkOk serial (x :: rest) (x :: out, evs, s')
  | insert {serial : Nat} {x : Node} {rest : List Node} {newName : List Char}
      {serial' : Nat} {out : List Node} {evs : List Ev} {s' : Nat} :
      alias_decision cfg filt idx x.sym = .ok true →
      create_file_suffix x.sym.name x.sym.addr cwd o serial = .ok (newName, serial') →
      WalkOk serial' (⟨⟨newName, x.sym.addr, x.sym.stype⟩, false⟩ :: rest) (out, evs, s') →
      WalkOk serial (x :: rest)
        (x :: out, ⟨x, ⟨newName, x.sym.addr, x.sym.stype⟩⟩ :: evs, s')

/-- A successful `walkAux` run is a `WalkOk` derivation. -/
theorem walkAux_ok_rel :
    ∀ (fuel serial : Nat) (l : List Node) (res : List Node × List Ev × Nat),
      walkAux cfg filt o cwd idx fuel serial l = .ok res →
      WalkOk cfg filt o cwd idx serial l res := by
  intro fuel
  induction fuel with
  | zero =>
    intro serial l res h
    exact absurd h (by simp [walkAux])
  | succ fuel ih =>
    intro serial l res h
    match l with
    | [] =>
      simp only [walkAux] at h
      injection h with h1
      rw [← h1]
      exact WalkOk.nil serial
    | x :: rest =>
      simp only [walkAux] at h
      split at h
      · simp at h
      · split at h
        · simp at h
        · rename_i hdec _ out1 evs1 s1 hw
          injection h with h1
          rw [← h1]
          exact WalkOk.skip hdec (ih serial rest _ hw)
      · split at h
        · simp at h
        · rename_i hdec hcfv nm2 s2 hcf
          clear hcfv
          split at h
          · simp at h
          · rename_i out1 evs1 s1 hw
            injection h with h1
            rw [← h1]
            exact WalkOk.insert hdec hcf (ih s2 _ _ hw)

/-- The walk preserves lower-bounded address chains: every alias record
copies the address of the record it is spliced behind. -/
theorem walkOk_chain {serial : Nat} {l : List Node} {res : List Node × List Ev × Nat}
    (hw : WalkOk cfg filt o cwd idx serial l res) :
    ∀ b : Node, List.Chain (fun u v : Node => u.sym.addr ≤ v.sym.addr) b l →
      List.Chain (fun u v : Node => u.sym.addr ≤ v.sym.addr) b res.1 := by
  induction hw with
  | nil serial => intro b _; exact List.Chain.nil
  | skip hdec hrec ih =>
    intro b hc
    rw [List.chain_cons] at hc
    exact List.chain_cons.2 ⟨hc.1, ih _ hc.2⟩
  | insert hdec hcf hrec ih =>
    intro b hc
    rw [List.chain_cons] at hc
    refine List.chain_cons.2 ⟨hc.1, ih _ ?_⟩
    rw [List.chain_cons]
    refine ⟨Nat.le_refl _, ?_⟩
    rename_i serial x rest newName serial' out evs s'
    cases rest with
    | nil => exact List.Chain.nil
    | cons r t =>
      rw [List.chain_cons] at hc ⊢
      exact ⟨hc.2.1, hc.2.2⟩

/-- Chain-free corollary: the walk preserves non-decreasing address
order of the whole sequence. -/
theorem walkOk_chain' {serial : Nat} {l : List Node} {res : List Node × List Ev × Nat}
    (hw : WalkOk cfg filt o cwd idx serial l res)
    (hc : List.Chain' (fun u v : Node => u.sym.addr ≤ v.sym.addr) l) :
    List.Chain' (fun u v : Node => u.sym.addr ≤ v.sym.addr) res.1 := by
  cases l with
  | nil =>
    cases hw
    trivial
  | cons x rest =>
    have hcx : List.Chain (fun u v : Node => u.sym.addr ≤ v.sym.addr) x (x :: rest) :=
      List.chain_cons.2 ⟨Nat.le_refl _, hc⟩
    exact chain_to_chain'0 (walkOk_chain cfg filt o cwd idx hw x hcx)

/-- The visited sequence survives as a sublist of the walk's output. -/
theorem walkOk_sublist {serial : Nat} {l : List Node} {res : List Node × List Ev × Nat}
    (hw : WalkOk cfg filt o cwd idx serial l res) : l.Sublist res.1 := by
  induction hw with
  | nil serial => exact List.Sublist.refl _
  | skip hdec hrec ih => exact List.Sublist.cons₂ _ ih
  | insert hdec hcf hrec ih =>
    refine List.Sublist.cons₂ _ (List.Sublist.trans ?_ ih)
    exact List.Sublist.cons _ (List.Sublist.refl _)

/-- Shape of every synthesis event: the alias copies address and type,
and its name is either the sanitized `<name>@<relpath>` form or the
serial `<name>__alias__<k>` form. -/
theorem walkOk_events {serial : Nat} {l : List Node} {res : List Node × List Ev × Nat}
    (hw : WalkOk cfg filt o cwd idx serial l res) :
    ∀ ev ∈ res.2.1, ev.anew.addr = ev.base.sym.addr ∧
      ev.anew.stype = ev.base.sym.stype ∧
      ((∃ p, ev.anew.name = sanitize (ev.base.sym.name ++ '@' :: p)) ∨
        (∃ k, ev.anew.name = (create_suffix ev.base.sym.name k).1)) := by
  induction hw with
  | nil serial => intro ev hev; simp at hev
  | skip hdec hrec ih => exact ih
  | insert hdec hcf hrec ih =>
    intro ev hev
    rcases List.mem_cons.1 hev with hev0 | hev1
    · subst hev0
      refine ⟨rfl, rfl, ?_⟩
      rcases (create_file_suffix_ok hcf).1 with h | h
      · exact .inl h
      · rename_i serial x rest newName serial' out evs s'
        exact .inr ⟨serial, h⟩
    · exact ih ev hev1

/-- One alias event per visited ingested record with the watched name,
provided the per-record decision fires for all of them. -/
theorem walkOk_count (N : List Char) {serial : Nat} {l : List Node}
    {res : List Node × List Ev × Nat}
    (hw : WalkOk cfg filt o cwd idx serial l res)
    (hdecN : ∀ x ∈ l, x.ingested = true → x.sym.name = N →
      alias_decision cfg filt idx x.sym = .ok true) :
    (res.2.1.filter (fun ev => ev.base.ingested && decide (ev.base.sym.name = N))).length
      = (l.filter (fun x => x.ingested && decide (x.sym.name = N))).length := by
  induction hw with
  | nil serial => rfl
  | skip hdec hrec ih =>
    rename_i serial x rest out evs s'
    have hx : (x.ingested && decide (x.sym.name = N)) = false := by
      by_cases h1 : x.ingested = true
      · by_cases h2 : x.sym.name = N
        · exact absurd (hdecN x (by simp) h1 h2) (by rw [hdec]; simp)
        · simp [h2]
      · have hfalse : x.ingested = false := by
          revert h1
          cases x.ingested <;> simp
        simp [hfalse]
    rw [List.filter_cons, if_neg (by simp [hx])]
    exact ih (fun y hy => hdecN y (by simp [hy]))
  | insert hdec hcf hrec ih =>
    rename_i serial x rest newName serial' out evs s'
    have hih := ih (fun y hy => by
      rcases List.mem_cons.1 hy with h0 | h1
      · intro hi _; rw [h0] at hi; simp at hi
      · exact hdecN y (by simp [h1]))
    have hsplit : ((⟨⟨newName, x.sym.addr, x.sym.stype⟩, false⟩ : Node) :: rest).filter
        (fun y => y.ingested && decide (y.sym.name = N)) =
        rest.filter (fun y => y.ingested && decide (y.sym.name = N)) := by
      rw [List.filter_cons, if_neg (by simp)]
    rw [hsplit] at hih
    rw [List.filter_cons, List.filter_cons]
    by_cases hx : (x.ingested && decide (x.sym.name = N)) = true
    · rw [if_pos (by simpa using hx), if_pos (by simpa using hx)]
      simp only [List.length_cons]
      rw [hih]
    · rw [if_neg (by simpa using hx), if_neg (by simpa using hx)]
      rw [hih]

/-- When every alias name that the walk could synthesize is absent from
the multiplicity index, the walk neither runs out of fuel nor aliases
an alias: every event's base is an ingested record. -/
theorem walk_no_cascade :
    ∀ (l : List Node) (fuel serial : Nat),
      2 * l.length + 1 ≤ fuel →
      (∀ x ∈ l, x.ingested = true) →
      (∀ x ∈ l, ∀ s, serial ≤ s → s < serial + l.length →
        ∀ nm s'', create_file_suffix x.sym.name x.sym.addr cwd o s = .ok (nm, s'') →
          item_counter idx nm ≤ 1) →
      walkAux cfg filt o cwd idx fuel serial l ≠ .error .fuel ∧
      (∀ out evs s', walkAux cfg filt o cwd idx fuel serial l = .ok (out, evs, s') →
        ∀ ev ∈ evs, ev.base.ingested = true ∧ item_counter idx ev.anew.name ≤ 1) := by
  intro l
  induction l with
  | nil =>
    intro fuel serial hfuel _ _
    match fuel, hfuel with
    | f + 1, _ =>
      constructor
      · simp [walkAux]
      · intro out evs s' h ev hev
        simp only [walkAux] at h
        injection h with h1
        injection h1 with ha hb
        injection hb with hb1 hb2
        rw [← hb1] at hev
        simp at hev
  | cons x rest ih =>
    intro fuel serial hfuel hing hfresh
    match fuel, hfuel with
    | f + 1, hf1 =>
      have hingx : x.ingested = true := hing x (by simp)
      cases hdec : alias_decision cfg filt idx x.sym with
      | error e =>
        have he : e = KasErr.filterErr := alias_decision_error hdec
        have houter : walkAux cfg filt o cwd idx (f + 1) serial (x :: rest) = .error e := by
          simp only [walkAux, hdec]
        constructor
        · rw [houter, he]; simp
        · intro out evs s' h; rw [houter] at h; simp at h
      | ok bdec =>
        cases bdec with
        | false =>
          obtain ⟨ihne, ihok⟩ := ih f serial
            (by simp only [List.length_cons] at hf1; omega)
            (fun y hy => hing y (by simp [hy]))
            (fun y hy s hs1 hs2 nm s'' hcf => hfresh y (by simp [hy]) s hs1
              (by simp only [List.length_cons] at hs2 ⊢; omega) nm s'' hcf)
          have houter : walkAux cfg filt o cwd idx (f + 1) serial (x :: rest) =
              (match walkAux cfg filt o cwd idx f serial rest with
               | .error e => .error e
               | .ok (out, evs, s') => .ok (x :: out, evs, s')) := by
            simp only [walkAux, hdec]
          cases hw : walkAux cfg filt o cwd idx f serial rest with
          | error e =>
            rw [hw] at houter
            constructor
            · rw [houter]; intro hcontra; injection hcontra with he
              exact ihne (he ▸ hw)
            · intro out evs s' h; rw [houter] at h; simp at h
          | ok triple =>
            obtain ⟨o1, e1, s1⟩ := triple
            rw [hw] at houter
            constructor
            · rw [houter]; simp
            · intro out evs s' h
              rw [houter] at h
              injection h with hpair
              injection hpair with h1 hrest
              injection hrest with h2 h3
              rw [← h2]
              exact ihok o1 e1 s1 hw
        | true =>
          cases hcf : create_file_suffix x.sym.name x.sym.addr cwd o serial with
          | error e =>
            have he : e = KasErr.bridgeCrash := create_file_suffix_error hcf
            have houter : walkAux cfg filt o cwd idx (f + 1) serial (x :: rest) = .error e := by
              simp only [walkAux, hdec, hcf]
            constructor
            · rw [houter, he]; simp
            · intro out evs s' h; rw [houter] at h; simp at h
          | ok pr =>
            obtain ⟨nm, s2⟩ := pr
            have hctr : item_counter idx nm ≤ 1 :=
              hfresh x (by simp) serial (Nat.le_refl _)
                (by simp only [List.length_cons]; omega) nm s2 hcf
            have hdecA : alias_decision cfg filt idx
                (⟨nm, x.sym.addr, x.sym.stype⟩ : Sym) = .ok false :=
              alias_decision_of_counter_le hctr
            have hs2 : s2 = serial ∨ s2 = serial + 1 := (create_file_suffix_ok hcf).2
            obtain ⟨g, rfl⟩ : ∃ g, f = g + 1 :=
              ⟨f - 1, by simp only [List.length_cons] at hf1; omega⟩
            obtain ⟨ihne, ihok⟩ := ih g s2
              (by simp only [List.length_cons] at hf1; omega)
              (fun y hy => hing y (by simp [hy]))
              (fun y hy s hs1 hs2' nm' s'' hcf' => hfresh y (by simp [hy]) s
                (by rcases hs2 with h | h <;> omega)
                (by rcases hs2 with h | h <;>
                  simp only [List.length_cons] at hs2' ⊢ <;> omega) nm' s'' hcf')
            have houter : walkAux cfg filt o cwd idx (g + 1 + 1) serial (x :: rest) =
                (match walkAux cfg filt o cwd idx g s2 rest with
                 | .error e => .error e
                 | .ok (o1, e1, s1) =>
                   .ok (x :: (⟨⟨nm, x.sym.addr, x.sym.stype⟩, false⟩ : Node) :: o1,
                     (⟨x, ⟨nm, x.sym.addr, x.sym.stype⟩⟩ : Ev) :: e1, s1)) := by
              simp only [walkAux, hdec, hcf, hdecA]
              cases hw2 : walkAux cfg filt o cwd idx g s2 rest with
              | error e => simp
              | ok t =>
                obtain ⟨a, b, c⟩ := t
                simp
            cases hw : walkAux cfg filt o cwd idx g s2 rest with
            | error e =>
              rw [hw] at houter
              constructor
              · rw [houter]; intro hcontra; injection hcontra with he
                exact ihne (he ▸ hw)
              · intro out evs s' h; rw [houter] at h; simp at h
            | ok triple =>
              obtain ⟨o1, e1, s1⟩ := triple
              rw [hw] at houter
              constructor
              · rw [houter]; simp
              · intro out evs s' h
                rw [houter] at h
                injection h with hpair
                injection hpair with h1 hrest
                injection hrest with h2 h3
                rw [← h2]
                intro ev hev
                rcases List.mem_cons.1 hev with hev0 | hev1
                · subst hev0
                  exact ⟨hingx, hctr⟩
                · exact ihok o1 e1 s1 hw ev hev1

end WalkLemmas



/-!  ## Lemmas: the assembled pipeline -/

theorem origNodes_map_sym (syms : List Sym) :
    (origNodes syms).map Node.sym = syms := by
  induction syms with
  | nil => rfl
  | cons r rs ih =>
    show Node.sym ⟨r, true⟩ :: (origNodes rs).map Node.sym = r :: rs
    rw [ih]

theorem origNodes_ingested (syms : List Sym) :
    ∀ x ∈ origNodes syms, x.ingested = true := by
  intro x hx
  unfold origNodes at hx
  obtain ⟨r, _, hr⟩ := List.mem_map.1 hx
  rw [← hr]

theorem origNodes_mem_sym {syms : List Sym} {x : Node} (hx : x ∈ origNodes syms) :
    x.sym ∈ syms := by
  unfold origNodes at hx
  obtain ⟨r, hr1, hr2⟩ := List.mem_map.1 hx
  rw [← hr2]
  exact hr1

theorem count_names_filter (syms : List Sym) (N : List Char) :
    (syms.map Sym.name).count N =
      (syms.filter (fun r => decide (r.name = N))).length := by
  induction syms with
  | nil => rfl
  | cons r rs ih =>
    rw [List.map_cons, List.filter_cons]
    by_cases h : r.name = N
    · rw [h, List.count_cons_self, if_pos (by simp [h])]
      simp [ih]
    · rw [List.count_cons_of_ne (fun hh => h hh.symm), if_neg (by simp [h])]
      exact ih

theorem origNodes_filter_name (syms : List Sym) (N : List Char) :
    ((origNodes syms).filter (fun x => x.ingested && decide (x.sym.name = N))).length
      = (syms.filter (fun r => decide (r.name = N))).length := by
  induction syms with
  | nil => rfl
  | cons r rs ih =>
    have hstep : origNodes (r :: rs) = ⟨r, true⟩ :: origNodes rs := rfl
    rw [hstep, List.filter_cons, List.filter_cons]
    by_cases h : r.name = N
    · rw [if_pos (by simp [h]), if_pos (by simp [h])]
      simp only [List.length_cons]
      rw [ih]
    · rw [if_neg (by simp [h]), if_neg (by simp [h])]
      exact ih

theorem item_counter_ingestIndex (syms : List Sym) (N : List Char) :
    item_counter (ingestIndex syms) N =
      (if 0 < (syms.map Sym.name).count N
       then ((syms.map Sym.name).count N : Int) else -1) := by
  unfold ingestIndex
  exact item_counter_buildIndex _ _

/-- Short-circuit: when the marker flag cleared during ingest, the run
emits the ingested records untouched and synthesizes nothing. -/
theorem kasRecords_shortCircuit (cfg : Cfg) (filt : List Char → Int)
    (o : Nat → Option (List Char)) (cwd : List Char) {input : List Char}
    (h : (ingest input).2 = false) :
    kasRecords cfg filt o cwd input = .ok (origNodes (ingest input).1, []) := by
  unfold kasRecords
  rw [h]
  simp

/-- A processing run is a successful walk. -/
theorem kasRecords_ok_walk {cfg filt o cwd input out evs}
    (hflag : (ingest input).2 = true)
    (h : kasRecords cfg filt o cwd input = .ok (out, evs)) :
    ∃ s', walkAux cfg filt o cwd (ingestIndex (ingest input).1)
      (walkFuel (ingest input).1) 0 (origNodes (ingest input).1) =
        .ok (out, evs, s') := by
  unfold kasRecords at h
  rw [hflag] at h
  simp only [if_true] at h
  split at h
  · simp at h
  · rename_i out1 evs1 s1 hw
    injection h with hpair
    injection hpair with h1 h2
    rw [h1, h2] at hw
    exact ⟨s1, hw⟩

/-- A processing run yields a `WalkOk` derivation. -/
theorem kasRecords_ok_rel {cfg filt o cwd input out evs}
    (hflag : (ingest input).2 = true)
    (h : kasRecords cfg filt o cwd input = .ok (out, evs)) :
    ∃ sOut, WalkOk cfg filt o cwd (ingestIndex (ingest input).1) 0
      (origNodes (ingest input).1) (out, evs, sOut) := by
  obtain ⟨s', hw⟩ := kasRecords_ok_walk hflag h
  exact ⟨s', walkAux_ok_rel _ _ _ _ _ _ _ _ _ hw⟩

/-!  ## Concrete fixtures for witnesses and counterexamples

The oracles: `demoOracleSerial` answers every query with `??:0` (what
`addr2line` prints for an unknown address; its normalized form `/??:0`
never rebases against the non-trivial image directory, so every alias
falls back to the serial form).  `demoOracleFile` answers with
source locations under the image directory `/kbuild`, so aliases take
the file-based form. -/

def demoOracleSerial : Nat → Option (List Char) := fun _ => some ("??:0".data)

def demoOracleFile : Nat → Option (List Char) := fun a =>
  if a = 256 then some ("/kbuild/x.c:1".data) else some ("/kbuild/y.c:7".data)

def demoCwd : List Char := "/kbuild".data

def demoCfg : Cfg := ⟨false⟩

def demoFilt : List Char → Int := fun _ => 0

def demoInput : List Char := "00000100 t a\n00000200 t a\n".data

def demoInputAlias : List Char :=
  "00000100 t x__alias__1\n00000200 t x__alias__1\n".data

/-- The final sequence of the serial demo run (checked by `rfl` where
used). -/
def demoSerialOut : List Node :=
  [⟨⟨"a".data, 256, 't'⟩, true⟩, ⟨⟨"a__alias__0".data, 256, 't'⟩, false⟩,
   ⟨⟨"a".data, 512, 't'⟩, true⟩, ⟨⟨"a__alias__1".data, 512, 't'⟩, false⟩]

/-- The synthesis events of the serial demo run. -/
def demoSerialEvs : List Ev :=
  [⟨⟨⟨"a".data, 256, 't'⟩, true⟩, ⟨"a__alias__0".data, 256, 't'⟩⟩,
   ⟨⟨⟨"a".data, 512, 't'⟩, true⟩, ⟨"a__alias__1".data, 512, 't'⟩⟩]

/-!  ## Claims -/

/-- C8 counterexample: on `/a/../..` the code returns the empty buffer
(the second `..`, not being the first token, takes the drop branch and
leaves the empty buffer empty), while the claim's algorithm — whose
drop branch requires a non-empty buffer — appends `/..`. -/
theorem C8_counterexample :
    ¬ normalizePath ("/a/../..".data) = specLexNormalize ("/a/../..".data) := by
  decide

theorem normLoop_amendedLexLoop :
    ∀ (ts : List (List Char)) (b : Bool) (buf : List Char),
      normLoop ts b buf = amendedLexLoop ts (!b) buf := by
  intro ts
  induction ts with
  | nil => intro b buf; rfl
  | cons t ts ih =>
    intro b buf
    by_cases hdd : t = ['.', '.']
    · by_cases hb : b = true
      · simp [normLoop, amendedLexLoop, hdd, hb, ih]
      · have hb' : b = false := by revert hb; cases b <;> simp
        simp [normLoop, amendedLexLoop, hdd, hb', ih]
    · by_cases hdot : t = ['.']
      · simp [normLoop, amendedLexLoop, hdd, hdot, ih]
      · simp [normLoop, amendedLexLoop, hdd, hdot, ih]

/-- C8 (amended): `normalizePath` equals the lexical algorithm whose
`..` branch fires for every non-first `..` token (dropping the last
`/<component>` when one exists and leaving an empty buffer empty);
a `..` that is the first token is appended; `.` is skipped; empty
input is refused. -/
theorem C8_path_normalization_amended (p : List Char) :
    normalizePath p = amendedLexNormalize p := by
  unfold normalizePath amendedLexNormalize
  by_cases hp : p.isEmpty = true
  · rw [if_pos hp, if_pos hp]
  · rw [if_neg hp, if_neg hp]
    exact congrArg some (normLoop_amendedLexLoop (pathTokens p) false [])

/-- C6 counterexample: `item_counter` answers `-1`, not `0`, for a name
the index has never seen, and an alias spliced into the sequence by
`add_item_at` (here `a__alias__0`, present in the output of a serial
run) is not reflected in the index either: its count reads `-1`, not
`1`. -/
theorem C6_counterexample :
    item_counter init_hash_index ("x".data) = -1 ∧
    item_counter init_hash_index ("x".data) ≠ 0 ∧
    kasRecords demoCfg demoFilt demoOracleSerial demoCwd demoInput =
      .ok (demoSerialOut, demoSerialEvs) ∧
    (⟨⟨"a__alias__0".data, 256, 't'⟩, false⟩ : Node) ∈ demoSerialOut ∧
    item_counter (ingestIndex (ingest demoInput).1) ("a__alias__0".data) = -1 := by
  exact ⟨by decide, by decide, by rfl, by decide, by decide⟩

/-- C6 (amended): the index counts exactly the `add_item` ingest calls:
for a store built by any ingest sequence, `item_counter` returns the
name's multiplicity among the ingested records when positive and `-1`
for a name never ingested; `add_item_at` insertions (aliases) are not
entered into the index. -/
theorem C6_multiplicity_amended (names : List (List Char)) (key : List Char) :
    item_counter (buildIndex names) key =
      (if 0 < names.count key then (names.count key : Int) else -1) :=
  item_counter_buildIndex names key

/-- C7: when `addr2line_init` fails, `main` exits with code 1 before
reading any input.  In this program file-based suffixes are
unconditionally required — every synthesis starts with
`create_file_suffix`, and no configuration selects a serial-only mode —
so the claim's "only if file-based suffixes are required" condition is
always satisfied and its "otherwise" branch is vacuous. -/
theorem C7_init_failure_fatal (cfg : Cfg) (filt : List Char → Int)
    (o : Nat → Option (List Char)) (cwd input : List Char) :
    kasMain false cfg filt o cwd input = .error 1 := rfl

/-- C3 counterexample: an input whose names contain `__alias__1` (and
no `@_`) does not short-circuit: the flag stays set and the run
synthesizes aliases, so the output differs from the pass-through. -/
theorem C3_counterexample :
    (∃ r ∈ (ingest demoInputAlias).1, hasSub ("__alias__1".data) r.name = true) ∧
    (ingest demoInputAlias).2 = true ∧
    ¬ kasRecords demoCfg demoFilt demoOracleSerial demoCwd demoInputAlias =
      .ok (origNodes (ingest demoInputAlias).1, []) := by
  refine ⟨by decide, by decide, by decide⟩

/-- C3 (amended): the run short-circuits (the ingested records are
emitted unchanged and no alias is added) iff some ingested name
contains the literal substring `@_`; the serial marker `__alias__1` is
not tested by this revision. -/
theorem C3_short_circuit_amended (cfg : Cfg) (filt : List Char → Int)
    (o : Nat → Option (List Char)) (cwd input : List Char) :
    ((ingest input).2 = false ↔
      ∃ r ∈ (ingest input).1, hasSub atUnderscore r.name = true) ∧
    ((ingest input).2 = false →
      kasRecords cfg filt o cwd input = .ok (origNodes (ingest input).1, [])) :=
  ⟨ingest_flag_false_iff input, fun h => kasRecords_shortCircuit cfg filt o cwd h⟩

/-- C3 witness: a concrete marker-bearing input short-circuits. -/
theorem C3_witness :
    (ingest ("00000100 t a@_b\n".data)).2 = false ∧
    kasRecords demoCfg demoFilt demoOracleSerial demoCwd ("00000100 t a@_b\n".data) =
      .ok (origNodes (ingest ("00000100 t a@_b\n".data)).1, []) := by
  have h := C3_short_circuit_amended demoCfg demoFilt demoOracleSerial demoCwd
    ("00000100 t a@_b\n".data)
  have hflag : (ingest ("00000100 t a@_b\n".data)).2 = false :=
    h.1.mpr ⟨⟨"a@_b".data, 256, 't'⟩, by decide, by decide⟩
  exact ⟨hflag, h.2 hflag⟩

/-- Input for the sanitization counterexample: a duplicated text symbol
whose name contains a byte (`.`) that is neither alphanumeric nor `@`. -/
def demoInputDot : List Char := "00000100 t a.b\n00000200 t a.b\n".data

/-- The final sequence of the file-based run on `demoInputDot`. -/
def demoDotOut : List Node :=
  [⟨⟨"a.b".data, 256, 't'⟩, true⟩, ⟨⟨"a_b@_x_c_1".data, 256, 't'⟩, false⟩,
   ⟨⟨"a.b".data, 512, 't'⟩, true⟩, ⟨⟨"a_b@_y_c_7".data, 512, 't'⟩, false⟩]

/-- The synthesis events of the file-based run on `demoInputDot`. -/
def demoDotEvs : List Ev :=
  [⟨⟨⟨"a.b".data, 256, 't'⟩, true⟩, ⟨"a_b@_x_c_1".data, 256, 't'⟩⟩,
   ⟨⟨⟨"a.b".data, 512, 't'⟩, true⟩, ⟨"a_b@_y_c_7".data, 512, 't'⟩⟩]

/-- The first synthesis event of that run. -/
def demoDotEv : Ev := ⟨⟨⟨"a.b".data, 256, 't'⟩, true⟩, ⟨"a_b@_x_c_1".data, 256, 't'⟩⟩

/-- C2 counterexample: the file-based alias for the record named `a.b`
is `a_b@_x_c_1` — the sanitization loop of `create_file_suffix` runs
over the whole alias string, so the original name is *not* preserved
byte-for-byte as a prefix. -/
theorem C2_counterexample :
    kasRecords demoCfg demoFilt demoOracleFile demoCwd demoInputDot =
      .ok (demoDotOut, demoDotEvs) ∧
    demoDotEv ∈ demoDotEvs ∧
    demoDotEv.base.sym.name.isPrefixOf demoDotEv.anew.name = false := by
  exact ⟨by rfl, by decide, by decide⟩

/-- C2 (amended): every synthesized alias copies its base record's
address and type, and its name is either the *fully sanitized*
`<base-name>@<relpath>` (every byte of the base name that is not
alphanumeric and not `@` is also rewritten to `_`) or the unsanitized
serial form `<base-name>__alias__<k>`. -/
theorem C2_alias_shape_amended (cfg : Cfg) (filt : List Char → Int)
    (o : Nat → Option (List Char)) (cwd input : List Char)
    (out : List Node) (evs : List Ev) (ev : Ev)
    (hrec : kasRecords cfg filt o cwd input = .ok (out, evs)) (hev : ev ∈ evs) :
    ev.anew.addr = ev.base.sym.addr ∧ ev.anew.stype = ev.base.sym.stype ∧
    ((∃ p, ev.anew.name = sanitize (ev.base.sym.name ++ '@' :: p)) ∨
      (∃ k, ev.anew.name = (create_suffix ev.base.sym.name k).1)) := by
  by_cases hflag : (ingest input).2 = true
  · obtain ⟨s', hrel⟩ := kasRecords_ok_rel hflag hrec
    exact walkOk_events cfg filt o cwd _ hrel ev hev
  · have hflag' : (ingest input).2 = false := by
      revert hflag; cases (ingest input).2 <;> simp
    have h2 := kasRecords_shortCircuit cfg filt o cwd hflag'
    rw [hrec] at h2
    injection h2 with hpair
    injection hpair with h1 h2'
    rw [h2'] at hev
    simp at hev

/-- C2 witness: the amended shape at the first event of the
`demoInputDot` run. -/
theorem C2_witness :
    demoDotEv.anew.addr = demoDotEv.base.sym.addr ∧
    demoDotEv.anew.stype = demoDotEv.base.sym.stype ∧
    ((∃ p, demoDotEv.anew.name = sanitize (demoDotEv.base.sym.name ++ '@' :: p)) ∨
      (∃ k, demoDotEv.anew.name = (create_suffix demoDotEv.base.sym.name k).1)) :=
  C2_alias_shape_amended demoCfg demoFilt demoOracleFile demoCwd demoInputDot
    demoDotOut demoDotEvs demoDotEv (by rfl) (by decide)

/-- C4: in a processing run, a name ingested k ≥ 2 times whose
occurrences all have aliasable types and which the active classifier
does not veto receives exactly one alias per ingested occurrence —
k aliases, not k − 1. -/
theorem C4_duplicates_k_aliases (cfg : Cfg) (filt : List Char → Int)
    (o : Nat → Option (List Char)) (cwd input : List Char) (N : List Char)
    (out : List Node) (evs : List Ev) (k : Nat)
    (hflag : (ingest input).2 = true)
    (hrec : kasRecords cfg filt o cwd input = .ok (out, evs))
    (hk : ((ingest input).1.filter (fun r => decide (r.name = N))).length = k)
    (hk2 : 2 ≤ k)
    (hclass : cfg.aliasData = true → filt N = 0)
    (htype : ∀ r ∈ (ingest input).1, r.name = N → symb_needs_alias cfg r.stype = true) :
    (evs.filter (fun ev => ev.base.ingested && decide (ev.base.sym.name = N))).length
      = k := by
  obtain ⟨s', hrel⟩ := kasRecords_ok_rel hflag hrec
  have hdecN : ∀ x ∈ origNodes (ingest input).1, x.ingested = true → x.sym.name = N →
      alias_decision cfg filt (ingestIndex (ingest input).1) x.sym = .ok true := by
    intro x hx _ hname
    have hsym : x.sym ∈ (ingest input).1 := origNodes_mem_sym hx
    have hcount : item_counter (ingestIndex (ingest input).1) x.sym.name > 1 := by
      rw [hname, item_counter_ingestIndex, count_names_filter, hk, if_pos (by omega)]
      exact_mod_cast (by omega : (1 : Nat) < k)
    unfold alias_decision
    rw [if_pos hcount]
    by_cases hcd : cfg.aliasData = true
    · have hf : filt x.sym.name = 0 := by rw [hname]; exact hclass hcd
      simp [hcd, hf, htype x.sym hsym hname]
    · have hcd' : cfg.aliasData = false := by
        revert hcd; cases cfg.aliasData <;> simp
      simp [hcd', htype x.sym hsym hname]
  have hcnt := walkOk_count cfg filt o cwd _ N hrel hdecN
  exact hcnt.trans ((origNodes_filter_name _ N).trans hk)

/-- C4 witness: the duplicated text symbol `a` (k = 2) of the serial
demo run receives exactly two aliases. -/
theorem C4_witness :
    (demoSerialEvs.filter
      (fun ev => ev.base.ingested && decide (ev.base.sym.name = "a".data))).length = 2 :=
  C4_duplicates_k_aliases demoCfg demoFilt demoOracleSerial demoCwd demoInput
    ("a".data) demoSerialOut demoSerialEvs 2 (by decide) (by rfl) (by decide)
    (by decide) (fun h => absurd h (by decide)) (by decide)

/-- C5: on an input already non-decreasing by address (the `nm -n`
format), the emitted sequence is still non-decreasing by address — each
alias is spliced in right after its base with the same address, and the
engine performs no re-sort — and every ingested record still appears. -/
theorem C5_sorted_superset (cfg : Cfg) (filt : List Char → Int)
    (o : Nat → Option (List Char)) (cwd input : List Char)
    (out : List Node) (evs : List Ev)
    (hrec : kasRecords cfg filt o cwd input = .ok (out, evs))
    (hsort : List.Chain' (fun a b : Sym => a.addr ≤ b.addr) (ingest input).1) :
    List.Chain' (fun a b : Sym => a.addr ≤ b.addr) (out.map Node.sym) ∧
    ∀ r ∈ (ingest input).1, r ∈ out.map Node.sym := by
  by_cases hflag : (ingest input).2 = true
  · obtain ⟨s', hrel⟩ := kasRecords_ok_rel hflag hrec
    constructor
    · have hsort' : List.Chain' (fun u v : Node => u.sym.addr ≤ v.sym.addr)
          (origNodes (ingest input).1) := by
        have h0 := hsort
        rw [← origNodes_map_sym (ingest input).1] at h0
        exact (List.chain'_map Node.sym).1 h0
      have hout := walkOk_chain' cfg filt o cwd _ hrel hsort'
      exact (List.chain'_map Node.sym).2 hout
    · intro r hr
      have hsub : (origNodes (ingest input).1).Sublist out :=
        walkOk_sublist cfg filt o cwd _ hrel
      have hsub2 : (ingest input).1.Sublist (out.map Node.sym) := by
        have := hsub.map Node.sym
        rw [origNodes_map_sym] at this
        exact this
      exact hsub2.subset hr
  · have hflag' : (ingest input).2 = false := by
      revert hflag; cases (ingest input).2 <;> simp
    have h2 := kasRecords_shortCircuit cfg filt o cwd hflag'
    rw [hrec] at h2
    injection h2 with hpair
    injection hpair with h1 h2'
    rw [h1, origNodes_map_sym]
    exact ⟨hsort, fun r hr => hr⟩

/-- C5 witness: the serial demo run keeps address order and retains the
first ingested record. -/
theorem C5_witness :
    List.Chain' (fun a b : Sym => a.addr ≤ b.addr) (demoSerialOut.map Node.sym) ∧
    (⟨"a".data, 256, 't'⟩ : Sym) ∈ demoSerialOut.map Node.sym := by
  have hlist : (ingest demoInput).1 =
      [(⟨"a".data, 256, 't'⟩ : Sym), ⟨"a".data, 512, 't'⟩] := rfl
  have hsorted : List.Chain' (fun a b : Sym => a.addr ≤ b.addr) (ingest demoInput).1 := by
    rw [hlist]
    simp
  have h := C5_sorted_superset demoCfg demoFilt demoOracleSerial demoCwd demoInput
    demoSerialOut demoSerialEvs (by rfl) hsorted
  exact ⟨h.1, h.2 ⟨"a".data, 256, 't'⟩ (by decide)⟩

/-- The first synthesis event of the serial demo run. -/
def demoSerialEv : Ev := ⟨⟨⟨"a".data, 256, 't'⟩, true⟩, ⟨"a__alias__0".data, 256, 't'⟩⟩

/-- C9: for a marker-free input none of whose potential alias names
collides with an ingested name, the duplicate walk — which splices each
alias right after the record it is visiting, so the alias is the next
node visited — completes within its fuel, and no alias record ever
receives an alias of its own: alias names are never entered into the
multiplicity index, so they never report a multiplicity above 1. -/
theorem C9_no_alias_of_alias (cfg : Cfg) (filt : List Char → Int)
    (o : Nat → Option (List Char)) (cwd input : List Char)
    (hmark : ∀ r ∈ (ingest input).1, hasSub atUnderscore r.name = false)
    (hfresh : ∀ x ∈ origNodes (ingest input).1,
      ∀ s < (origNodes (ingest input).1).length,
        alias_name_fresh (ingest input).1 cwd o x.sym s = true) :
    kasRecords cfg filt o cwd input ≠ .error .fuel ∧
    (∀ out evs, kasRecords cfg filt o cwd input = .ok (out, evs) →
      ∀ ev ∈ evs, ev.base.ingested = true ∧
        ¬ item_counter (ingestIndex (ingest input).1) ev.anew.name > 1) := by
  have hflag : (ingest input).2 = true := by
    rw [ingest_flag]
    rw [List.all_eq_true]
    intro r hr
    simp [hmark r hr]
  have hlen : (origNodes (ingest input).1).length = (ingest input).1.length := by
    unfold origNodes
    simp
  have hfuel : 2 * (origNodes (ingest input).1).length + 1 ≤
      walkFuel (ingest input).1 := by
    have h1 : ((ingest input).1.length + 1) * 2 ≤ walkFuel (ingest input).1 := by
      unfold walkFuel
      exact Nat.mul_le_mul_left _ (by omega)
    omega
  have hfresh' : ∀ x ∈ origNodes (ingest input).1, ∀ s, 0 ≤ s →
      s < 0 + (origNodes (ingest input).1).length →
      ∀ nm s'', create_file_suffix x.sym.name x.sym.addr cwd o s = .ok (nm, s'') →
        item_counter (ingestIndex (ingest input).1) nm ≤ 1 := by
    intro x hx s _ hs nm s'' hcf
    have hf := hfresh x hx s (by omega)
    unfold alias_name_fresh at hf
    rw [hcf] at hf
    have hnotin : nm ∉ (ingest input).1.map Sym.name := of_decide_eq_true hf
    have hzero : ((ingest input).1.map Sym.name).count nm = 0 :=
      List.count_eq_zero.2 hnotin
    rw [item_counter_ingestIndex, hzero]
    simp
  obtain ⟨hne, hok⟩ := walk_no_cascade cfg filt o cwd (ingestIndex (ingest input).1)
    (origNodes (ingest input).1) (walkFuel (ingest input).1) 0 hfuel
    (origNodes_ingested (ingest input).1) hfresh'
  constructor
  · unfold kasRecords
    rw [hflag]
    simp only [if_true]
    cases hw : walkAux cfg filt o cwd (ingestIndex (ingest input).1)
        (walkFuel (ingest input).1) 0 (origNodes (ingest input).1) with
    | error e =>
      intro hcontra
      simp only [hw] at hcontra
      injection hcontra with he
      exact hne (he ▸ hw)
    | ok triple =>
      obtain ⟨o1, e1, s1⟩ := triple
      simp [hw]
  · intro out evs hrec ev hev
    obtain ⟨s', hw⟩ := kasRecords_ok_walk hflag hrec
    have h := hok out evs s' hw ev hev
    exact ⟨h.1, by omega⟩

/-- C9 witness: the serial demo run — two duplicated `a` records, fresh
alias names — completes, and its first event has an ingested base whose
alias reports multiplicity −1. -/
theorem C9_witness :
    kasRecords demoCfg demoFilt demoOracleSerial demoCwd demoInput ≠ .error .fuel ∧
    demoSerialEv.base.ingested = true ∧
    ¬ item_counter (ingestIndex (ingest demoInput).1) demoSerialEv.anew.name > 1 := by
  have h := C9_no_alias_of_alias demoCfg demoFilt demoOracleSerial demoCwd demoInput
    (by decide) (by decide)
  exact ⟨h.1, h.2 demoSerialOut demoSerialEvs (by rfl) demoSerialEv (by decide)⟩

theorem takeWhile_append_all {p : Char → Bool} :
    ∀ (l r : List Char), (∀ a ∈ l, p a = true) →
      (l ++ r).takeWhile p = l ++ r.takeWhile p := by
  intro l
  induction l with
  | nil => intro r _; rfl
  | cons a t ih =>
    intro r hl
    have ha : p a = true := hl a (by simp)
    simp only [List.cons_append, List.takeWhile_cons, ha, if_true]
    rw [ih r (fun x hx => hl x (by simp [hx]))]

/-- Reduce a well-formed `"%lx %c"` prefix, leaving the `%99s \n` part
to `scanfTail`. -/
theorem scanfStep_shape (addrDs : List Char) (c : Char) (body : List Char)
    (hd1 : addrDs ≠ [])
    (hd2 : ∀ a ∈ addrDs, isHexDig a = true ∧ cIsSpace a = false)
    (hc : cIsSpace c = false) :
    scanfStep (addrDs ++ ' ' :: c :: ' ' :: body) =
      scanfTail (hexVal addrDs % 18446744073709551616) (c :: ' ' :: body) := by
  have hdrop1 : (addrDs ++ ' ' :: c :: ' ' :: body).dropWhile cIsSpace =
      addrDs ++ ' ' :: c :: ' ' :: body :=
    dropWhile_all_keep _ _ hd1 (fun a ha => (hd2 a ha).2)
  have htake : (addrDs ++ ' ' :: c :: ' ' :: body).takeWhile isHexDig = addrDs :=
    takeWhile_all_stop _ _ _ (fun a ha => (hd2 a ha).1) (by decide)
  have hne : addrDs.isEmpty = false := by
    cases hpd : addrDs with
    | nil => exact absurd hpd hd1
    | cons x xs => rfl
  unfold scanfStep
  simp only [hdrop1, htake, hne, Bool.false_eq_true, if_false, List.drop_left]
  rw [dropWhile_cons_true _ (by decide)]
  rw [List.dropWhile_cons_of_neg (by simp [hc])]

/-- C10: the ingest accepts at most 99 name bytes per `fscanf` call:
a well-formed line with a name of at most 99 bytes is stored intact,
and on a longer name only the first 99 bytes are consumed, the
remainder staying in the stream for the next parse attempt — although
`MAX_NAME_SIZE` lets a record hold up to 255 bytes. -/
theorem C10_scanf_name_limit (addrDs : List Char) (c : Char)
    (nm rest rest2 : List Char)
    (hd1 : addrDs ≠ [])
    (hd2 : ∀ a ∈ addrDs, isHexDig a = true ∧ cIsSpace a = false)
    (hc : cIsSpace c = false)
    (hn1 : nm ≠ [])
    (hn2 : ∀ a ∈ nm, cIsSpace a = false) :
    (nm.length ≤ 99 →
      scanfStep (addrDs ++ ' ' :: c :: ' ' :: (nm ++ '\n' :: rest)) =
        some (⟨nm, hexVal addrDs % 18446744073709551616, c⟩,
          rest.dropWhile cIsSpace)) ∧
    (99 < nm.length →
      scanfStep (addrDs ++ ' ' :: c :: ' ' :: (nm ++ rest2)) =
        some (⟨nm.take 99, hexVal addrDs % 18446744073709551616, c⟩,
          nm.drop 99 ++ rest2)) ∧
    99 < MAX_NAME_SIZE - 1 := by
  refine ⟨?_, ?_, by decide⟩
  · intro hlen
    rw [scanfStep_shape addrDs c _ hd1 hd2 hc]
    have hd4 : List.dropWhile cIsSpace (' ' :: (nm ++ '\n' :: rest)) =
        nm ++ '\n' :: rest := by
      rw [dropWhile_cons_true _ (by decide)]
      exact dropWhile_all_keep nm ('\n' :: rest) hn1 hn2
    have htake2 : (nm ++ '\n' :: rest).takeWhile (fun x => !cIsSpace x) = nm :=
      takeWhile_all_stop _ _ _ (fun a ha => by simp [hn2 a ha]) (by decide)
    have hne2 : nm.isEmpty = false := by
      cases hpd : nm with
      | nil => exact absurd hpd hn1
      | cons x xs => rfl
    have hdnl : List.dropWhile cIsSpace ('\n' :: rest) = rest.dropWhile cIsSpace :=
      dropWhile_cons_true _ (by decide)
    simp only [scanfTail, hd4, htake2, List.take_of_length_le hlen, hne2,
      Bool.false_eq_true, if_false, List.drop_left, hdnl]
  · intro hlen
    rw [scanfStep_shape addrDs c _ hd1 hd2 hc]
    have hd4 : List.dropWhile cIsSpace (' ' :: (nm ++ rest2)) = nm ++ rest2 := by
      rw [dropWhile_cons_true _ (by decide)]
      exact dropWhile_all_keep nm rest2 hn1 hn2
    have htw : (nm ++ rest2).takeWhile (fun x => !cIsSpace x) =
        nm ++ rest2.takeWhile (fun x => !cIsSpace x) :=
      takeWhile_append_all nm rest2 (fun a ha => by simp [hn2 a ha])
    have htk99 : (nm ++ rest2.takeWhile (fun x => !cIsSpace x)).take 99 =
        nm.take 99 := by
      rw [List.take_append_eq_append_take, show 99 - nm.length = 0 from by omega]
      simp
    have hlen99 : (nm.take 99).length = 99 := by
      rw [List.length_take]
      omega
    have hne3 : (nm.take 99).isEmpty = false := by
      cases hpd : nm.take 99 with
      | nil => rw [hpd] at hlen99; simp at hlen99
      | cons x xs => rfl
    have hdrop99 : (nm ++ rest2).drop 99 = nm.drop 99 ++ rest2 := by
      rw [List.drop_append_eq_append_drop, show 99 - nm.length = 0 from by omega]
      simp
    have hfinal : List.dropWhile cIsSpace (nm.drop 99 ++ rest2) =
        nm.drop 99 ++ rest2 :=
      dropWhile_all_keep (nm.drop 99) rest2
        (by
          intro hcontra
          have hl := congrArg List.length hcontra
          rw [List.length_drop] at hl
          simp at hl
          omega)
        (fun a ha => hn2 a (List.drop_subset _ _ ha))
    simp only [scanfTail, hd4, htw, htk99, hne3, Bool.false_eq_true, if_false,
      hlen99, hdrop99, hfinal]

/-- C10 witness: a 3-byte name parses whole; a 120-byte name is cut at
99 bytes with the remaining 21 left in the stream. -/
theorem C10_witness :
    scanfStep ("00000100".data ++ ' ' :: 't' :: ' ' :: ("abc".data ++ '\n' :: "next".data)) =
      some (⟨"abc".data, hexVal ("00000100".data) % 18446744073709551616, 't'⟩,
        ("next".data).dropWhile cIsSpace) ∧
    scanfStep ("00000100".data ++ ' ' :: 't' :: ' ' ::
        (List.replicate 120 'q' ++ "\nZ".data)) =
      some (⟨(List.replicate 120 'q').take 99,
        hexVal ("00000100".data) % 18446744073709551616, 't'⟩,
        (List.replicate 120 'q').drop 99 ++ "\nZ".data) := by
  constructor
  · exact (C10_scanf_name_limit ("00000100".data) 't' ("abc".data) ("next".data) []
      (by decide) (by decide) (by decide) (by decide) (by decide)).1 (by decide)
  · exact (C10_scanf_name_limit ("00000100".data) 't' (List.replicate 120 'q') []
      ("\nZ".data) (by decide) (by decide) (by decide) (by decide) (by decide)).2.1
      (by decide)

/-- The final sequence of the file-based run on `demoInput`. -/
def demoFileOut : List Node :=
  [⟨⟨"a".data, 256, 't'⟩, true⟩, ⟨⟨"a@_x_c_1".data, 256, 't'⟩, false⟩,
   ⟨⟨"a".data, 512, 't'⟩, true⟩, ⟨⟨"a@_y_c_7".data, 512, 't'⟩, false⟩]

/-- The synthesis events of the file-based run on `demoInput`. -/
def demoFileEvs : List Ev :=
  [⟨⟨⟨"a".data, 256, 't'⟩, true⟩, ⟨"a@_x_c_1".data, 256, 't'⟩⟩,
   ⟨⟨⟨"a".data, 512, 't'⟩, true⟩, ⟨"a@_y_c_7".data, 512, 't'⟩⟩]

/-- C1 counterexample: a run whose aliases all take the serial fallback
form.  Its output contains no `@_` marker, so a second run does not
short-circuit: it aliases the still-duplicated originals again and
emits six lines instead of four — not byte-identical. -/
theorem C1_counterexample :
    kasStr demoCfg demoFilt demoOracleSerial demoCwd demoInput =
      .ok ("00000100 t a\n00000100 t a__alias__0\n00000200 t a\n00000200 t a__alias__1\n".data) ∧
    kasStr demoCfg demoFilt demoOracleSerial demoCwd
      ("00000100 t a\n00000100 t a__alias__0\n00000200 t a\n00000200 t a__alias__1\n".data) =
      .ok ("00000100 t a\n00000100 t a__alias__0\n00000100 t a__alias__0\n00000200 t a\n00000200 t a__alias__1\n00000200 t a__alias__1\n".data) ∧
    ¬ ("00000100 t a\n00000100 t a__alias__0\n00000100 t a__alias__0\n00000200 t a\n00000200 t a__alias__1\n00000200 t a__alias__1\n".data =
      "00000100 t a\n00000100 t a__alias__0\n00000200 t a\n00000200 t a__alias__1\n".data) := by
  exact ⟨by rfl, by rfl, by decide⟩

/-- C1 (amended): re-running the tool on its own output is
byte-identical *when the first run's output carries a `@_` marker*
(always the case when at least one file-based alias with a
`/`-rooted relative path was synthesized) and every emitted record
prints reversibly (nonempty whitespace-free name of at most 99 bytes,
non-whitespace type, 64-bit address); serial-only outputs carry no
such marker and are re-processed (see the counterexample). -/
theorem C1_idempotent_amended (cfg : Cfg) (filt : List Char → Int)
    (o : Nat → Option (List Char)) (cwd input : List Char)
    (out : List Node) (evs : List Ev)
    (hrec : kasRecords cfg filt o cwd input = .ok (out, evs))
    (hwf : ∀ r ∈ out.map Node.sym, WfSym r)
    (hmark : ∃ r ∈ out.map Node.sym, hasSub atUnderscore r.name = true) :
    kasStr cfg filt o cwd (printNm (out.map Node.sym)) =
      .ok (printNm (out.map Node.sym)) := by
  have hing := ingest_printNm (out.map Node.sym) hwf
  obtain ⟨r, hr, hrm⟩ := hmark
  have hflag : (ingest (printNm (out.map Node.sym))).2 = false := by
    cases hall : (out.map Node.sym).all (fun x => !hasSub atUnderscore x.name) with
    | false => rw [hing]; exact hall
    | true =>
      exfalso
      have hcontra := List.all_eq_true.1 hall r hr
      rw [hrm] at hcontra
      simp at hcontra
  have hrec2 := kasRecords_shortCircuit cfg filt o cwd hflag
  unfold kasStr
  rw [hrec2]
  have hsyms : (ingest (printNm (out.map Node.sym))).1 = out.map Node.sym := by
    rw [hing]
  rw [hsyms]
  simp only [origNodes_map_sym]

/-- C1 witness: the file-based demo run's output re-runs to itself. -/
theorem C1_witness :
    kasStr demoCfg demoFilt demoOracleFile demoCwd
      (printNm (demoFileOut.map Node.sym)) =
      .ok (printNm (demoFileOut.map Node.sym)) :=
  C1_idempotent_amended demoCfg demoFilt demoOracleFile demoCwd demoInput
    demoFileOut demoFileEvs (by rfl) (by decide)
    ⟨⟨"a@_x_c_1".data, 256, 't'⟩, by decide, by decide⟩

end KasAlias
